import Mathlib

/-! # Verification of `app/static/js/main.js`

A shallow embedding of the event handlers of `main.js` and the properties of
its specification that concern them.

JavaScript strings are sequences of UTF-16 code units; a regular expression
without the `u` flag works on code units.  The text pipeline of the slug
generator is therefore modelled on `List Nat`, one number per code unit.
-/

namespace MainJs

/-! ## Strings as UTF-16 code units -/

/-- A JavaScript string value: its UTF-16 code units. -/
abbrev JSString := List Nat

/-- UTF-16 encoding of one code point. -/
def utf16Char (c : Nat) : List Nat :=
  if c < 0x10000 then [c]
  else [0xD800 + (c - 0x10000) / 0x400, 0xDC00 + (c - 0x10000) % 0x400]

/-- The JavaScript string written by a literal. -/
def js (s : String) : JSString :=
  s.toList.flatMap fun c => utf16Char c.toNat

/-- The two string methods of the host that the slug pipeline calls and that are
not defined by `main.js`: `String.prototype.toLowerCase` and
`String.prototype.normalize('NFD')`. -/
structure Host where
  toLowerCase : JSString → JSString
  normalizeNFD : JSString → JSString

/-! ## Regular-expression character classes used by `main.js` -/

/-- Class `[\u0300-\u036f]`: combining diacritical marks. -/
def isCombiningMark (c : Nat) : Bool := 0x0300 ≤ c && c ≤ 0x036f

/-- Class `\s` of ECMAScript: WhiteSpace and LineTerminator code units. The same
set is what `String.prototype.trim` strips. -/
def isSpace (c : Nat) : Bool :=
  c == 0x09 || c == 0x0A || c == 0x0B || c == 0x0C || c == 0x0D || c == 0x20 ||
  c == 0xA0 || c == 0x1680 || (0x2000 ≤ c && c ≤ 0x200A) || c == 0x2028 ||
  c == 0x2029 || c == 0x202F || c == 0x205F || c == 0x3000 || c == 0xFEFF

/-- The hyphen-minus `-`. -/
def hyphen : Nat := 0x2D

/-- Class `[a-z0-9\s-]`, whose complement the pipeline deletes. -/
def isSlugSource (c : Nat) : Bool :=
  (0x61 ≤ c && c ≤ 0x7A) || (0x30 ≤ c && c ≤ 0x39) || isSpace c || c == hyphen

/-- Class `[a-z0-9-]`: the characters of a URL-safe slug. -/
def isSlugChar (c : Nat) : Bool :=
  (0x61 ≤ c && c ≤ 0x7A) || (0x30 ≤ c && c ≤ 0x39) || c == hyphen

/-! ## `String.prototype.replace` with a global one-class pattern -/

/-- Semantics of `.replace(/[C]/g, '')`: every code unit of class `p` is deleted. -/
def removeAll (p : Nat → Bool) (s : JSString) : JSString :=
  s.filter fun c => !p c

/-- Scanner for `.replace(/[C]+/g, r)`. The flag tells whether the previous code
unit belonged to the run being matched: a run of class `p` is matched greedily
from its first unit, and the whole run is replaced by the single unit `r`. -/
def replaceRunsFrom (p : Nat → Bool) (r : Nat) : Bool → JSString → JSString
  | _, [] => []
  | inRun, c :: cs =>
    if p c then
      if inRun then replaceRunsFrom p r true cs
      else r :: replaceRunsFrom p r true cs
    else c :: replaceRunsFrom p r false cs

/-- Semantics of `.replace(/[C]+/g, r)` with a one-unit replacement. -/
def replaceRuns (p : Nat → Bool) (r : Nat) (s : JSString) : JSString :=
  replaceRunsFrom p r false s

/-- Semantics of `String.prototype.trim`: white space is removed from both ends.
The method takes no parameter, so the argument of `.trim('-')` is ignored. -/
def jsTrim (s : JSString) : JSString :=
  ((s.dropWhile isSpace).reverse.dropWhile isSpace).reverse

/-! ## The slug generator (lines 78-99) -/

/-- Result of `.toLowerCase().normalize('NFD')`. -/
def decomposed (H : Host) (title : JSString) : JSString :=
  H.normalizeNFD (H.toLowerCase title)

/-- Result after `.replace(/[\u0300-\u036f]/g, '')`. -/
def withoutAccents (H : Host) (title : JSString) : JSString :=
  removeAll isCombiningMark (decomposed H title)

/-- Result after `.replace(/[^a-z0-9\s-]/g, '')`. -/
def withoutSpecials (H : Host) (title : JSString) : JSString :=
  removeAll (fun c => !isSlugSource c) (withoutAccents H title)

/-- Result after `.replace(/\s+/g, '-')`. -/
def spacesToHyphens (H : Host) (title : JSString) : JSString :=
  replaceRuns isSpace hyphen (withoutSpecials H title)

/-- Result after the replacement of every run of hyphens by one hyphen (line 90). -/
def hyphensCollapsed (H : Host) (title : JSString) : JSString :=
  replaceRuns (fun c => c == hyphen) hyphen (spacesToHyphens H title)

/-- The value of `slug` computed by the title listener: the whole chain, ending
with `.trim('-')`. -/
def slugify (H : Host) (title : JSString) : JSString :=
  jsTrim (hyphensCollapsed H title)

/-- The part of the page the two listeners read and write: the value of the
title field, the value of the slug field and `slugInput.dataset.modified`
(`none` when the attribute `data-modified` is absent). -/
structure SlugForm where
  titleValue : JSString
  slugValue : JSString
  modified : Option JSString
deriving DecidableEq, Repr

/-- Truthiness of `slugInput.dataset.modified`: `undefined` and the empty string
are falsy, every other string is truthy. -/
def SlugForm.isModified (f : SlugForm) : Bool :=
  match f.modified with
  | none => false
  | some v => !v.isEmpty

/-- An `input` event on the title field: the field already holds the new text
`title` when the listener of lines 82-94 runs. -/
def titleInputEvent (H : Host) (title : JSString) (f : SlugForm) : SlugForm :=
  let f1 := { f with titleValue := title }
  if !f1.isModified then { f1 with slugValue := slugify H f1.titleValue } else f1

/-- An `input` event on the slug field: the field already holds the typed text
`typed` when the listener of lines 96-98 sets the marker to `'true'`. -/
def slugInputEvent (typed : JSString) (f : SlugForm) : SlugForm :=
  { f with slugValue := typed, modified := some (js "true") }

/-- The input events of the two fields. -/
inductive FormEvent where
  | title (text : JSString)
  | slug (typed : JSString)
deriving DecidableEq, Repr

/-- One event handled. -/
def stepForm (H : Host) (f : SlugForm) : FormEvent → SlugForm
  | .title text => titleInputEvent H text f
  | .slug typed => slugInputEvent typed f

/-- A sequence of events handled in order. -/
def runForm (H : Host) (f : SlugForm) (es : List FormEvent) : SlugForm :=
  es.foldl (stepForm H) f

/-! ### A host for Basic Latin and Latin-1 Supplement

`toLowerCase` and `normalize('NFD')` as Unicode defines them on code units below
`0x100`; a code unit outside that range is passed through unchanged, so the model
is exact on strings whose code units are all below `0x100`. -/

/-- Lower-case mapping of one code unit below `0x100`. -/
def latin1Lower (c : Nat) : Nat :=
  if 0x41 ≤ c ∧ c ≤ 0x5A then c + 0x20
  else if 0xC0 ≤ c ∧ c ≤ 0xDE ∧ c ≠ 0xD7 then c + 0x20
  else c

/-- Canonical decomposition of one code unit below `0x100`: base letter and
combining mark. -/
def latin1Decompose (c : Nat) : List Nat :=
  match c with
  | 0xC0 => [0x41, 0x300] | 0xC1 => [0x41, 0x301] | 0xC2 => [0x41, 0x302]
  | 0xC3 => [0x41, 0x303] | 0xC4 => [0x41, 0x308] | 0xC5 => [0x41, 0x30A]
  | 0xC7 => [0x43, 0x327]
  | 0xC8 => [0x45, 0x300] | 0xC9 => [0x45, 0x301] | 0xCA => [0x45, 0x302]
  | 0xCB => [0x45, 0x308]
  | 0xCC => [0x49, 0x300] | 0xCD => [0x49, 0x301] | 0xCE => [0x49, 0x302]
  | 0xCF => [0x49, 0x308]
  | 0xD1 => [0x4E, 0x303]
  | 0xD2 => [0x4F, 0x300] | 0xD3 => [0x4F, 0x301] | 0xD4 => [0x4F, 0x302]
  | 0xD5 => [0x4F, 0x303] | 0xD6 => [0x4F, 0x308]
  | 0xD9 => [0x55, 0x300] | 0xDA => [0x55, 0x301] | 0xDB => [0x55, 0x302]
  | 0xDC => [0x55, 0x308]
  | 0xDD => [0x59, 0x301]
  | 0xE0 => [0x61, 0x300] | 0xE1 => [0x61, 0x301] | 0xE2 => [0x61, 0x302]
  | 0xE3 => [0x61, 0x303] | 0xE4 => [0x61, 0x308] | 0xE5 => [0x61, 0x30A]
  | 0xE7 => [0x63, 0x327]
  | 0xE8 => [0x65, 0x300] | 0xE9 => [0x65, 0x301] | 0xEA => [0x65, 0x302]
  | 0xEB => [0x65, 0x308]
  | 0xEC => [0x69, 0x300] | 0xED => [0x69, 0x301] | 0xEE => [0x69, 0x302]
  | 0xEF => [0x69, 0x308]
  | 0xF1 => [0x6E, 0x303]
  | 0xF2 => [0x6F, 0x300] | 0xF3 => [0x6F, 0x301] | 0xF4 => [0x6F, 0x302]
  | 0xF5 => [0x6F, 0x303] | 0xF6 => [0x6F, 0x308]
  | 0xF9 => [0x75, 0x300] | 0xFA => [0x75, 0x301] | 0xFB => [0x75, 0x302]
  | 0xFC => [0x75, 0x308]
  | 0xFD => [0x79, 0x301] | 0xFF => [0x79, 0x308]
  | _ => [c]

/-- The host restricted to code units below `0x100`. -/
def latin1Host : Host where
  toLowerCase s := s.map latin1Lower
  normalizeNFD s := s.flatMap latin1Decompose

/-- Whether two hyphens stand next to each other somewhere in the string. -/
def hasDoubleHyphen : JSString → Bool
  | a :: b :: rest => (a == hyphen && b == hyphen) || hasDoubleHyphen (b :: rest)
  | _ => false

/-! ## Character counter (lines 124-143)

The numbers of JavaScript are IEEE-754 binary64 values. A value of the counter
arithmetic is held exactly, as its numerator over `2 ^ 53`. -/

/-- Numerator over `2 ^ 53` of the binary64 number that the literal `0.9` denotes
(bit pattern `0x3FECCCCCCCCCCCCD`). -/
def point9 : Nat := 0x1CCCCCCCCCCCCD

/-- Number of binary digits, counted by halving at most `fuel` times. -/
def bitLengthFrom : Nat → Nat → Nat
  | 0, _ => 0
  | fuel + 1, m => if m = 0 then 0 else bitLengthFrom fuel (m / 2) + 1

/-- Number of binary digits of `n`. -/
def bitLength (n : Nat) : Nat := bitLengthFrom n n

/-- Rounding of the exact value `p / 2 ^ 53` to 53 significant bits, to nearest
with ties to even: `s` low bits are cut off, where `s` is the number of bits
of `p` above 53. The result is again a numerator over `2 ^ 53`. -/
def roundBinary64 (p : Nat) : Nat :=
  let s := bitLength p - 53
  let q := p / 2 ^ s
  let r := p % 2 ^ s
  if 2 ^ s < 2 * r ∨ (2 * r = 2 ^ s ∧ q % 2 = 1) then (q + 1) * 2 ^ s else q * 2 ^ s

/-- The product `maxLength * 0.9`: the string `maxLength` is converted to the
number it spells, and the exact product is rounded to binary64. -/
def timesPoint9 (maxLength : Nat) : Nat :=
  roundBinary64 (maxLength * point9)

/-- The test `currentLength > maxLength * 0.9` of line 135. -/
def aboveNinetyPercent (currentLength maxLength : Nat) : Bool :=
  decide (timesPoint9 maxLength < currentLength * 2 ^ 53)

/-- The counter element `small`: its text and its class. -/
structure Counter where
  textContent : String
  className : String
deriving DecidableEq, Repr

/-- The counter as created at load for a textarea whose attribute `maxlength`
is the decimal numeral of `maxLength` (lines 125-129). -/
def counterInit (maxLength : Nat) : Counter :=
  { textContent := "0/" ++ toString maxLength, className := "text-muted" }

/-- The `input` listener of the textarea (lines 131-142), for a text of
`currentLength` code units. `parseInt(maxLength)` and the numeric conversion of
`maxLength` both give the number `maxLength`. -/
def counterOnInput (maxLength currentLength : Nat) (counter : Counter) : Counter :=
  let counter1 := { counter with
    textContent := toString currentLength ++ "/" ++ toString maxLength }
  if aboveNinetyPercent currentLength maxLength then
    { counter1 with className := "text-warning" }
  else if currentLength = maxLength then
    { counter1 with className := "text-danger" }
  else
    { counter1 with className := "text-muted" }

/-! ## Dark mode (lines 47-58) -/

/-- The state the dark-mode code reads and writes: the class tokens of `body`, in
order, and `localStorage` as a map from keys to stored strings. -/
structure Page where
  bodyClasses : List String
  localStorage : String → Option String

/-- Result of `classList.contains(token)`. -/
def classContains (token : String) (classes : List String) : Bool :=
  classes.contains token

/-- Result of `classList.add(token)`: appended unless present. -/
def classAdd (token : String) (classes : List String) : List String :=
  if classContains token classes then classes else classes ++ [token]

/-- Result of `classList.toggle(token)`: removed when present, appended otherwise. -/
def classToggle (token : String) (classes : List String) : List String :=
  if classContains token classes then classes.filter (fun t => t != token)
  else classes ++ [token]

/-- String conversion of a boolean, as `setItem` applies it to its value. -/
def boolToJs (b : Bool) : String := if b then "true" else "false"

/-- Result of `localStorage.setItem(key, value)`. -/
def setItem (key value : String) (store : String → Option String) : String → Option String :=
  fun k => if k = key then some value else store k

/-- The click listener of the toggle (lines 49-52). -/
def darkModeClick (p : Page) : Page :=
  let classes := classToggle "dark-theme" p.bodyClasses
  { bodyClasses := classes,
    localStorage := setItem "darkMode" (boolToJs (classContains "dark-theme" classes))
      p.localStorage }

/-- The load-time part (lines 47-58): nothing happens without the toggle; with it,
the stored preference `'true'` adds the class. -/
def darkModeLoad (toggleExists : Bool) (p : Page) : Page :=
  if toggleExists then
    if p.localStorage "darkMode" = some "true" then
      { p with bodyClasses := classAdd "dark-theme" p.bodyClasses }
    else p
  else p

/-! ## Delete confirmation (lines 61-67) -/

/-- A `submit` event: whether its default action has been cancelled. -/
structure SubmitEvent where
  defaultPrevented : Bool
deriving DecidableEq, Repr

/-- Method `preventDefault` of the event. -/
def SubmitEvent.preventDefault (e : SubmitEvent) : SubmitEvent :=
  { e with defaultPrevented := true }

/-- The submit listener of a `.delete-form`; `confirmed` is what `confirm(...)`
returned. -/
def deleteFormSubmit (confirmed : Bool) (e : SubmitEvent) : SubmitEvent :=
  if !confirmed then e.preventDefault else e

/-- The browser submits the form after the listeners unless the default action
was cancelled. -/
def submissionProceeds (e : SubmitEvent) : Bool := !e.defaultPrevented

/-! ## The page as a tree of elements -/

/-- An element of the page: tag name, `id`, `className` and the other attributes and
properties that `main.js` sets, as key-value pairs. -/
structure Element where
  tag : String
  id : String := ""
  className : String := ""
  props : List (String × String) := []
deriving DecidableEq, Repr

/-- A DOM subtree: an element and its child elements in document order. -/
inductive Node where
  | mk (elem : Element) (children : List Node)
deriving Repr

/-- Value written under a key: an existing entry is replaced, a new one appended. -/
def setKey (key value : String) : List (String × String) → List (String × String)
  | [] => [(key, value)]
  | (k, v) :: rest =>
    if k = key then (key, value) :: rest else (k, v) :: setKey key value rest

namespace Node

/-- The element at the root of the subtree. -/
def elem : Node → Element
  | mk e _ => e

/-- The child elements, in document order. -/
def children : Node → List Node
  | mk _ cs => cs

/-- Result of `parent.appendChild(child)` for a new `child`: it becomes the last child. -/
def appendChild : Node → Node → Node
  | mk e cs, child => mk e (cs ++ [child])

/-- The node without its `i`-th child. -/
def removeChild : Node → Nat → Node
  | mk e cs, i => mk e (cs.eraseIdx i)

/-- The node with further children appended, in order. -/
def appendChildren : Node → List Node → Node
  | mk e cs, more => mk e (cs ++ more)

/-- Assignment to a property of the element, such as `src`. -/
def setProp : Node → String → String → Node
  | mk e cs, key, value => mk { e with props := setKey key value e.props } cs

/-- Value of a property of the element. -/
def prop? (key : String) (n : Node) : Option String :=
  (n.elem.props.find? fun kv => kv.1 == key).map Prod.snd

mutual
/-- Search of `getElementById` below and including a node: the path (child indexes) of
the first element in document order whose `id` is `target`. An element without the
attribute has the empty `id`; `main.js` never searches for the empty string. -/
def findId (target : String) : Node → Option (List Nat)
  | mk e cs => if e.id = target then some [] else findIdIn target 0 cs
/-- Search of `getElementById` in a list of siblings, the first of which has index `i`. -/
def findIdIn (target : String) (i : Nat) : List Node → Option (List Nat)
  | [] => none
  | c :: cs =>
    match findId target c with
    | some p => some (i :: p)
    | none => findIdIn target (i + 1) cs
end

mutual
/-- Number of elements with `id` equal to `target` below and including a node. -/
def countId (target : String) : Node → Nat
  | mk e cs => (if e.id = target then 1 else 0) + countIdIn target cs
/-- Number of elements with `id` equal to `target` in a list of subtrees. -/
def countIdIn (target : String) : List Node → Nat
  | [] => 0
  | c :: cs => countId target c + countIdIn target cs
end

/-- The node reached by a path of child indexes. -/
def at? : Node → List Nat → Option Node
  | n, [] => some n
  | mk _ cs, i :: p =>
    match cs[i]? with
    | some c => c.at? p
    | none => none

/-- The tree with the node at a path replaced by its image under `f`. -/
def modifyAt (f : Node → Node) : List Nat → Node → Node
  | [], n => f n
  | i :: p, mk e cs =>
    match cs[i]? with
    | some c => mk e (cs.set i (modifyAt f p c))
    | none => mk e cs

/-- Result of `node.remove()` for the node at `path`: it leaves the child list of
its parent. The root has no parent inside the tree. -/
def removeAt (path : List Nat) (n : Node) : Node :=
  match path.getLast? with
  | some i => n.modifyAt (fun parent => parent.removeChild i) path.dropLast
  | none => n

end Node

/-! ## Toasts (lines 154-181) -/

/-- The container that lines 157-160 build. -/
def toastContainerElement : Node :=
  .mk { tag := "div", id := "toast-container",
        className := "toast-container position-fixed top-0 end-0 p-3",
        props := [("style.zIndex", "1050")] } []

/-- The markup that lines 167-172 assign to `toast.innerHTML`: the template with the
message put in as it is, unescaped. -/
def toastMarkup (message : String) : String :=
  "\n        <div class=\"d-flex\">\n            <div class=\"toast-body\">" ++ message
    ++ "</div>\n            <button type=\"button\" class=\"btn-close btn-close-white me-2 m-auto\" data-bs-dismiss=\"toast\"></button>\n        </div>\n    "

/-- The `div` that lines 164-172 build; the argument `type` defaults to `'info'`.
The assignment to `innerHTML` runs the HTML fragment parser of the host, `parseHTML`:
the children of the toast are the elements that the markup denotes, whatever
elements and ids the message brings in. -/
def toastElement (parseHTML : String → List Node) (message : String) (type : Option String) :
    Node :=
  .mk { tag := "div",
        className := "toast align-items-center text-white bg-" ++ type.getD "info" ++ " border-0",
        props := [("role", "alert")] }
    (parseHTML (toastMarkup message))

/-- Lines 155-162: when `getElementById('toast-container')` finds nothing, a container
is created and appended to the body. The page is given by its `body` subtree. -/
def ensureToastContainer (body : Node) : Node :=
  match body.findId "toast-container" with
  | some _ => body
  | none => body.appendChild toastContainerElement

/-- Function `showToast(message, type = 'info')`: the page after the call. The toast is
appended to what `getElementById('toast-container')` returns; `none` stands for the
`TypeError` of a call on `null`. -/
def showToast (parseHTML : String → List Node) (message : String) (type : Option String)
    (body : Node) : Option Node :=
  let body1 := ensureToastContainer body
  match body1.findId "toast-container" with
  | some p =>
    some (body1.modifyAt
      (fun container => container.appendChild (toastElement parseHTML message type)) p)
  | none => none

/-- The listener of `hidden.bs.toast` (lines 178-180): `toast.remove()` for the toast
at `path`. -/
def toastHidden (path : List Nat) (doc : Node) : Node :=
  doc.removeAt path

/-- The toast element of one call, given by its arguments. -/
def toastOf (parseHTML : String → List Node) (call : String × Option String) : Node :=
  toastElement parseHTML call.1 call.2

/-- Successive calls of `showToast`, each given by its two arguments. -/
def showToasts (parseHTML : String → List Node) (calls : List (String × Option String))
    (body : Node) : Option Node :=
  calls.foldlM (fun doc call => showToast parseHTML call.1 call.2 doc) body

/-- The elements of a toast markup whose message denotes the elements `inner`: the
flex row with the body of the toast, which holds the message, and the close button. -/
def toastContent (inner : List Node) : List Node :=
  [.mk { tag := "div", className := "d-flex" }
    [.mk { tag := "div", className := "toast-body" } inner,
     .mk { tag := "button", className := "btn-close btn-close-white me-2 m-auto",
           props := [("type", "button"), ("data-bs-dismiss", "toast")] } []]]

/-- The fragment parser of the host on two toast markups: that of the plain message
`x`, which denotes no element of its own, and that of the message
`<div id="toast-container"></div>`, which denotes one `div` with that id. Text is
not part of the tree; any other markup is given no elements here. -/
def parseToastMarkup (markup : String) : List Node :=
  if markup = toastMarkup "x" then toastContent []
  else if markup = toastMarkup "<div id=\"toast-container\"></div>" then
    toastContent [.mk { tag := "div", id := "toast-container" } []]
  else []

/-! ## Image preview (lines 102-121) -/

/-- The `img` that lines 110-113 build. -/
def previewElement (id : String) : Node :=
  .mk { tag := "img", id := id, className := "img-thumbnail mt-2",
        props := [("style.maxWidth", "200px")] } []

/-- The `onload` handler of the reader (lines 107-117) for the input that is child
number `index` of the element at path `parent`; `result` is `e.target.result`.
The variable `preview` is a reference to an element of the page, here its path.
`none` stands for an input that is not in the page. -/
def previewOnLoad (parent : List Nat) (index : Nat) (result : String) (body : Node) :
    Option Node :=
  match body.at? parent with
  | none => none
  | some par =>
    match par.children[index]? with
    | none => none
    | some input =>
      match body.findId (input.elem.id ++ "-preview") with
      | some preview => some (body.modifyAt (fun img => img.setProp "src" result) preview)
      | none =>
        let body1 := body.modifyAt
          (fun par => par.appendChild (previewElement (input.elem.id ++ "-preview"))) parent
        some (body1.modifyAt (fun img => img.setProp "src" result)
          (parent ++ [par.children.length]))

end MainJs

/-! # Properties -/

namespace MainJs

/-! ## Slug generator -/

theorem removeAll_forall (p : Nat → Bool) (s : JSString) :
    ∀ c ∈ removeAll p s, p c = false := by
  intro c hc
  simp [removeAll] at hc
  exact hc.2

theorem replaceRunsFrom_forall (p q : Nat → Bool) (r : Nat) (hr : q r = true) :
    ∀ (s : JSString) (b : Bool), (∀ c ∈ s, p c = false → q c = true) →
      ∀ c ∈ replaceRunsFrom p r b s, q c = true := by
  intro s
  induction s with
  | nil => intro b _ c hc; simp [replaceRunsFrom] at hc
  | cons a as ih =>
    intro b hs c hc
    have has : ∀ c ∈ as, p c = false → q c = true :=
      fun c hc => hs c (List.mem_cons_of_mem _ hc)
    unfold replaceRunsFrom at hc
    by_cases hpa : p a = true
    · simp only [hpa, if_true] at hc
      cases b with
      | true => exact ih true has c (by simpa using hc)
      | false =>
        simp only [Bool.false_eq_true, if_false, List.mem_cons] at hc
        rcases hc with rfl | hc
        · exact hr
        · exact ih true has c hc
    · simp only [hpa, Bool.false_eq_true, if_false, List.mem_cons] at hc
      rcases hc with rfl | hc
      · exact hs c (List.mem_cons_self _ _) (by simpa using hpa)
      · exact ih false has c hc

/-- Inside a run of hyphens the scanner emits nothing, so what it emits next does
not start with a hyphen. -/
theorem collapse_inRun_head (s : JSString) :
    (replaceRunsFrom (fun c => c == hyphen) hyphen true s).head? ≠ some hyphen := by
  induction s with
  | nil => simp [replaceRunsFrom]
  | cons a as ih =>
    unfold replaceRunsFrom
    by_cases ha : a = hyphen
    · simpa [ha] using ih
    · simp [ha]

theorem hasDoubleHyphen_cons (a : Nat) (s : JSString)
    (h : a ≠ hyphen ∨ s.head? ≠ some hyphen) (hs : hasDoubleHyphen s = false) :
    hasDoubleHyphen (a :: s) = false := by
  cases s with
  | nil => simp [hasDoubleHyphen]
  | cons b rest =>
    simp only [hasDoubleHyphen, hs, Bool.or_false, Bool.and_eq_false_imp, beq_iff_eq]
    intro ha
    rcases h with h | h
    · exact absurd ha h
    · simpa using h

theorem collapse_noDouble (s : JSString) (b : Bool) :
    hasDoubleHyphen (replaceRunsFrom (fun c => c == hyphen) hyphen b s) = false := by
  induction s generalizing b with
  | nil => simp [replaceRunsFrom, hasDoubleHyphen]
  | cons a as ih =>
    unfold replaceRunsFrom
    by_cases ha : a = hyphen
    · cases b with
      | true => simpa [ha] using ih true
      | false =>
        simp only [ha, beq_self_eq_true, if_true, Bool.false_eq_true, if_false]
        exact hasDoubleHyphen_cons _ _ (Or.inr (collapse_inRun_head as)) (ih true)
    · simp only [beq_iff_eq, ha, if_false]
      exact hasDoubleHyphen_cons _ _ (Or.inl ha) (ih false)

theorem dropWhile_of_forall_false (p : Nat → Bool) (s : JSString)
    (h : ∀ c ∈ s, p c = false) : s.dropWhile p = s := by
  cases s with
  | nil => rfl
  | cons a as => simp [List.dropWhile, h a (List.mem_cons_self _ _)]

theorem jsTrim_of_no_space (s : JSString) (h : ∀ c ∈ s, isSpace c = false) :
    jsTrim s = s := by
  unfold jsTrim
  rw [dropWhile_of_forall_false isSpace s h,
    dropWhile_of_forall_false isSpace s.reverse (fun c hc => h c (List.mem_reverse.mp hc)),
    List.reverse_reverse]

theorem isSlugChar_not_space (c : Nat) (h : isSlugChar c = true) : isSpace c = false := by
  simp only [isSlugChar, hyphen, Bool.or_eq_true, Bool.and_eq_true, decide_eq_true_eq,
    beq_iff_eq] at h
  simp only [isSpace, Bool.or_eq_false_iff, Bool.and_eq_false_imp, decide_eq_true_eq,
    decide_eq_false_iff_not, beq_eq_false_iff_ne]
  omega

theorem spacesToHyphens_chars (H : Host) (title : JSString) :
    ∀ c ∈ spacesToHyphens H title, isSlugChar c = true := by
  unfold spacesToHyphens replaceRuns
  apply replaceRunsFrom_forall isSpace isSlugChar hyphen (by decide)
  intro c hc hsp
  have h := removeAll_forall _ _ c hc
  simp only [Bool.not_eq_false_eq_eq_true, Bool.not_eq_eq_eq_not, Bool.not_false] at h
  simp only [isSlugSource, hsp, Bool.or_false] at h
  simpa [isSlugChar] using h

theorem hyphensCollapsed_chars (H : Host) (title : JSString) :
    ∀ c ∈ hyphensCollapsed H title, isSlugChar c = true := by
  unfold hyphensCollapsed replaceRuns
  apply replaceRunsFrom_forall (fun c => c == hyphen) isSlugChar hyphen (by decide)
  intro c hc _
  exact spacesToHyphens_chars H title c hc

theorem slugify_eq_hyphensCollapsed (H : Host) (title : JSString) :
    slugify H title = hyphensCollapsed H title :=
  jsTrim_of_no_space _ fun c hc => isSlugChar_not_space c (hyphensCollapsed_chars H title c hc)

theorem titleInputEvent_unmodified (H : Host) (title : JSString) (f : SlugForm)
    (h : f.isModified = false) :
    (titleInputEvent H title f).slugValue = slugify H title := by
  have h1 : SlugForm.isModified { f with titleValue := title } = false := by
    simpa [SlugForm.isModified] using h
  simp [titleInputEvent, h1]

theorem titleInputEvent_modified (H : Host) (title : JSString) (f : SlugForm)
    (h : f.isModified = true) :
    titleInputEvent H title f = { f with titleValue := title } := by
  have h1 : SlugForm.isModified { f with titleValue := title } = true := by
    simpa [SlugForm.isModified] using h
  simp [titleInputEvent, h1]

theorem runForm_keeps_marker (H : Host) (es : List FormEvent) (f : SlugForm)
    (h : f.modified = some (js "true")) :
    (runForm H f es).modified = some (js "true") := by
  induction es generalizing f with
  | nil => simpa [runForm] using h
  | cons e es ih =>
    have hm : f.isModified = true := by rw [SlugForm.isModified, h]; decide
    have step : (stepForm H f e).modified = some (js "true") := by
      cases e with
      | title text => rw [stepForm, titleInputEvent_modified H text f hm]; exact h
      | slug typed => rfl
    simpa [runForm] using ih (stepForm H f e) step

theorem hasDoubleHyphen_spec (s : JSString) (h : hasDoubleHyphen s = false) (i : Nat) :
    ¬ (s[i]? = some 0x2D ∧ s[i + 1]? = some 0x2D) := by
  induction s generalizing i with
  | nil => simp
  | cons a as ih =>
    cases as with
    | nil => cases i <;> simp
    | cons b rest =>
      simp only [hasDoubleHyphen, Bool.or_eq_false_iff, Bool.and_eq_false_imp, beq_iff_eq,
        hyphen] at h
      cases i with
      | zero =>
        simp only [List.getElem?_cons_zero, List.getElem?_cons_succ, Option.some.injEq]
        rintro ⟨ha, hb⟩
        exact absurd hb (by simpa using h.1 ha)
      | succ j => simpa using ih h.2 j

/-- C1: with the slug field not marked as modified, an input event carrying the
title "Café del Mar!!" writes exactly "cafe-del-mar" into the slug field, for every
host whose `toLowerCase` and `normalize('NFD')` treat this title as Unicode
prescribes (lower-casing `C` and `M`, decomposing `é` into `e` + U+0301). -/
theorem C1_cafe_del_mar (H : Host) (f : SlugForm) (hmod : f.isModified = false)
    (hlower : H.toLowerCase (js "Caf\u00e9 del Mar!!") = js "caf\u00e9 del mar!!")
    (hnfd : H.normalizeNFD (js "caf\u00e9 del mar!!") = js "cafe\u0301 del mar!!") :
    (titleInputEvent H (js "Caf\u00e9 del Mar!!") f).slugValue = js "cafe-del-mar" := by
  rw [titleInputEvent_unmodified H _ f hmod]
  unfold slugify hyphensCollapsed spacesToHyphens withoutSpecials withoutAccents decomposed
  rw [hlower, hnfd]
  decide

/-- Witness of C1: the Latin-1 host and an empty, unmarked form. -/
theorem C1_cafe_del_mar_witness :
    (titleInputEvent latin1Host (js "Caf\u00e9 del Mar!!")
      { titleValue := [], slugValue := [], modified := none }).slugValue
      = js "cafe-del-mar" :=
  C1_cafe_del_mar latin1Host { titleValue := [], slugValue := [], modified := none }
    (by decide) (by decide) (by decide)

/-- C2: for every host and every title, each code unit of the slug computed by the
title listener is one of `a`-`z`, `0`-`9` or `-`, and no two hyphens are adjacent. -/
theorem C2_slug_alphabet (H : Host) (title : JSString) :
    (∀ c ∈ slugify H title,
        (0x61 ≤ c ∧ c ≤ 0x7A) ∨ (0x30 ≤ c ∧ c ≤ 0x39) ∨ c = 0x2D) ∧
      ∀ i : Nat, ¬ ((slugify H title)[i]? = some 0x2D ∧
        (slugify H title)[i + 1]? = some 0x2D) := by
  rw [slugify_eq_hyphensCollapsed]
  refine ⟨fun c hc => ?_, fun i => hasDoubleHyphen_spec _ (collapse_noDouble _ false) i⟩
  have h := hyphensCollapsed_chars H title c hc
  simpa [isSlugChar, hyphen, or_assoc] using h

/-- C3: after one input event on the slug field, whatever events follow, the
marker of the slug field is still `'true'` and a further input event on the title
field leaves the value of the slug field as it was, whatever the title. -/
theorem C3_manual_slug_is_kept (H : Host) (f : SlugForm) (typed : JSString)
    (es : List FormEvent) (title : JSString) :
    (runForm H (slugInputEvent typed f) es).modified = some (js "true") ∧
      (runForm H (slugInputEvent typed f) es).isModified = true ∧
      (titleInputEvent H title (runForm H (slugInputEvent typed f) es)).slugValue
        = (runForm H (slugInputEvent typed f) es).slugValue ∧
      (titleInputEvent H title (runForm H (slugInputEvent typed f) es)).modified
        = some (js "true") := by
  have hm := runForm_keeps_marker H es (slugInputEvent typed f) rfl
  have hb : (runForm H (slugInputEvent typed f) es).isModified = true := by
    rw [SlugForm.isModified, hm]; decide
  refine ⟨hm, hb, ?_, ?_⟩
  · rw [titleInputEvent_modified H title _ hb]
  · rw [titleInputEvent_modified H title _ hb]; exact hm

/-- C5: on the title "Hola mundo " (a space typed after the last word) the slug
computed by the title listener is "hola-mundo-": it ends with a hyphen, and on
" x" it is "-x", which begins with one. -/
theorem C5_hyphen_at_the_ends :
    slugify latin1Host (js "Hola mundo ") = js "hola-mundo-" ∧
      (slugify latin1Host (js "Hola mundo ")).getLast? = some hyphen ∧
      slugify latin1Host (js " x") = js "-x" ∧
      (slugify latin1Host (js " x")).head? = some hyphen := by
  decide

/-- C10: for every host and every title the string after hyphen collapsing holds
no white space, `trim` returns it unchanged, and the slug is that string; with the
Latin-1 host the title " Hola " yields "-hola-". -/
theorem C10_trim_is_identity (H : Host) (title : JSString) :
    (∀ c ∈ hyphensCollapsed H title, isSpace c = false) ∧
      jsTrim (hyphensCollapsed H title) = hyphensCollapsed H title ∧
      slugify H title = hyphensCollapsed H title ∧
      jsTrim (js "-hola-") = js "-hola-" ∧
      slugify latin1Host (js " Hola ") = js "-hola-" :=
  ⟨fun c hc => isSlugChar_not_space c (hyphensCollapsed_chars H title c hc),
    slugify_eq_hyphensCollapsed H title, slugify_eq_hyphensCollapsed H title,
    by decide, by decide⟩

/-! ## Character counter -/

theorem bitLengthFrom_bounds (fuel : Nat) : ∀ m, m ≤ fuel → 0 < m →
    2 ^ (bitLengthFrom fuel m - 1) ≤ m ∧ m < 2 ^ bitLengthFrom fuel m := by
  induction fuel with
  | zero => intro m h1 h2; omega
  | succ k ih =>
    intro m hm hpos
    have hne : m ≠ 0 := by omega
    simp only [bitLengthFrom, hne, if_false, Nat.add_sub_cancel]
    by_cases h1 : m / 2 = 0
    · have : m = 1 := by omega
      subst this
      cases k <;> simp [bitLengthFrom]
    · have hk := ih (m / 2) (by omega) (by omega)
      have hb : 0 < bitLengthFrom k (m / 2) := by
        cases k with
        | zero => omega
        | succ j => simp [bitLengthFrom, h1]
      obtain ⟨lo, hi⟩ := hk
      have e : bitLengthFrom k (m / 2) = (bitLengthFrom k (m / 2) - 1) + 1 := by omega
      constructor
      · rw [e, pow_succ]; omega
      · rw [pow_succ]; omega

theorem bitLength_bounds (p : Nat) (hp : 0 < p) :
    2 ^ (bitLength p - 1) ≤ p ∧ p < 2 ^ bitLength p :=
  bitLengthFrom_bounds p p le_rfl hp

/-- Rounding never goes below a multiple of the unit that the exact value reaches. -/
theorem roundBinary64_ge (p k : Nat) (h : k * 2 ^ (bitLength p - 53) ≤ p) :
    k * 2 ^ (bitLength p - 53) ≤ roundBinary64 p := by
  unfold roundBinary64
  simp only
  generalize 2 ^ (bitLength p - 53) = X at *
  rcases Nat.eq_zero_or_pos X with hX | hX
  · subst hX; simp
  have hk : k ≤ p / X := (Nat.le_div_iff_mul_le hX).mpr h
  have h1 : k * X ≤ p / X * X := Nat.mul_le_mul_right X hk
  split
  · rw [Nat.add_mul]; omega
  · exact h1

/-- Rounding moves the exact value by at most half a unit. -/
theorem roundBinary64_le (p : Nat) :
    2 * roundBinary64 p ≤ 2 * p + 2 ^ (bitLength p - 53) := by
  unfold roundBinary64
  simp only
  generalize 2 ^ (bitLength p - 53) = X at *
  have hdm := Nat.div_add_mod p X
  have hcomm : X * (p / X) = p / X * X := Nat.mul_comm _ _
  split
  · rename_i hc
    rw [Nat.add_mul]
    omega
  · omega

theorem aboveNinetyPercent_iff (n M : Nat) (hM : 0 < M) (hmax : M ≤ 2 ^ 49) :
    aboveNinetyPercent n M = true ↔ 9 * M < 10 * n := by
  unfold aboveNinetyPercent timesPoint9
  rw [decide_eq_true_iff]
  have hP : 0 < M * point9 := Nat.mul_pos hM (by decide)
  obtain ⟨lo, hi⟩ := bitLength_bounds (M * point9) hP
  have hge := roundBinary64_ge (M * point9)
  have hle := roundBinary64_le (M * point9)
  -- the exponent of the unit
  have hbig : 2 ^ 53 ≤ 2 ^ bitLength (M * point9) := by
    by_contra hcon
    have : bitLength (M * point9) < 53 := by
      by_contra h2
      exact hcon (Nat.pow_le_pow_right (by decide) (by omega))
    have h3 : 2 ^ bitLength (M * point9) ≤ 2 ^ 52 := Nat.pow_le_pow_right (by decide) (by omega)
    have : point9 ≤ M * point9 := Nat.le_mul_of_pos_left _ hM
    simp only [point9] at *
    omega
  have hb53 : 53 ≤ bitLength (M * point9) := by
    by_contra h2
    have h3 : 2 ^ bitLength (M * point9) ≤ 2 ^ 52 := Nat.pow_le_pow_right (by decide) (by omega)
    omega
  set s := bitLength (M * point9) - 53 with hs
  have e1 : bitLength (M * point9) - 1 = s + 52 := by omega
  rw [e1, pow_add] at lo
  have hs50 : s ≤ 50 := by
    by_contra h2
    have h3 : 2 ^ 51 ≤ 2 ^ s := Nat.pow_le_pow_right (by decide) (by omega)
    simp only [point9] at *
    omega
  have hsplit : n * 2 ^ 53 = (n * 2 ^ (53 - s)) * 2 ^ s := by
    rw [Nat.mul_assoc, ← pow_add]; congr 2; omega
  have hge1 := hge (n * 2 ^ (53 - s))
  rw [← hsplit] at hge1
  generalize 2 ^ s = X at *
  generalize roundBinary64 (M * point9) = R at *
  simp only [point9] at *
  constructor
  · intro h
    by_contra hcon
    have := hge1 (by omega)
    omega
  · intro h
    omega

/-- Counterexample to C4 as stated: with `maxlength="10"` a text of 9 characters,
which is 90% of the maximum, leaves the counter at class `text-muted`, not
`text-warning`; and a text of 10 characters gets `text-warning`, not
`text-danger`. -/
theorem C4_counterexample :
    (counterOnInput 10 9 (counterInit 10)).className = "text-muted" ∧
      (counterOnInput 10 9 (counterInit 10)).className ≠ "text-warning" ∧
      (counterOnInput 10 10 (counterInit 10)).className = "text-warning" ∧
      (counterOnInput 10 10 (counterInit 10)).className ≠ "text-danger" := by
  decide

/-- C4 (amended): for a maximum `0 < M ≤ 2 ^ 49` and a length `n < M`, the input
listener sets the text to "n/M" and the class to `text-muted` when `n` is at most
90% of `M` (`10 n ≤ 9 M`) and to `text-warning` when `n` is more than 90% of `M`. -/
theorem C4_counter_bands (M n : Nat) (c : Counter) (hM : 0 < M) (hmax : M ≤ 2 ^ 49)
    (hn : n < M) :
    (counterOnInput M n c).textContent = toString n ++ "/" ++ toString M ∧
      (10 * n ≤ 9 * M → (counterOnInput M n c).className = "text-muted") ∧
      (9 * M < 10 * n → (counterOnInput M n c).className = "text-warning") := by
  have hiff := aboveNinetyPercent_iff n M hM hmax
  have hne : n ≠ M := by omega
  refine ⟨?_, ?_, ?_⟩
  · unfold counterOnInput
    split_ifs <;> rfl
  · intro h
    have hf : aboveNinetyPercent n M = false := by
      rw [← Bool.not_eq_true, hiff]; omega
    simp [counterOnInput, hf, hne]
  · intro h
    have ht : aboveNinetyPercent n M = true := hiff.mpr h
    simp [counterOnInput, ht]

/-- Witness of C4 (amended): `maxlength="10"` with 5 characters typed. -/
theorem C4_counter_bands_witness :
    (counterOnInput 10 5 (counterInit 10)).textContent = toString 5 ++ "/" ++ toString 10 ∧
      (10 * 5 ≤ 9 * 10 → (counterOnInput 10 5 (counterInit 10)).className = "text-muted") ∧
      (9 * 10 < 10 * 5 → (counterOnInput 10 5 (counterInit 10)).className = "text-warning") :=
  C4_counter_bands 10 5 (counterInit 10) (by decide) (by decide) (by decide)

/-! ## Dark mode -/

theorem classContains_toggle (token : String) (classes : List String) :
    classContains token (classToggle token classes) = !classContains token classes := by
  unfold classToggle
  by_cases h : classContains token classes = true
  · simp only [h, if_true, Bool.not_true]
    simp [classContains]
  · simp only [h, Bool.false_eq_true, if_false]
    simp [classContains]

theorem classContains_add (token : String) (classes : List String) :
    classContains token (classAdd token classes) = true := by
  unfold classAdd
  by_cases h : classContains token classes = true
  · simp [h]
  · simp only [h, Bool.false_eq_true, if_false]
    simp [classContains]

/-- C6: one click flips the presence of `dark-theme` on the body and stores
`"true"` or `"false"` under `darkMode` according to the presence after the click;
two clicks restore the presence; and a later load with the toggle present, on a
body whose markup does not carry the class, applies it exactly when the last click
left it on. -/
theorem C6_dark_mode_toggle (p : Page) (markup : List String)
    (hmarkup : classContains "dark-theme" markup = false) :
    classContains "dark-theme" (darkModeClick p).bodyClasses
        = !classContains "dark-theme" p.bodyClasses ∧
      (darkModeClick p).localStorage "darkMode"
        = some (if classContains "dark-theme" (darkModeClick p).bodyClasses
            then "true" else "false") ∧
      classContains "dark-theme" (darkModeClick (darkModeClick p)).bodyClasses
        = classContains "dark-theme" p.bodyClasses ∧
      classContains "dark-theme"
          (darkModeLoad true
            { bodyClasses := markup, localStorage := (darkModeClick p).localStorage }).bodyClasses
        = classContains "dark-theme" (darkModeClick p).bodyClasses := by
  have h1 : classContains "dark-theme" (darkModeClick p).bodyClasses
      = !classContains "dark-theme" p.bodyClasses := classContains_toggle _ _
  have h2 : (darkModeClick p).localStorage "darkMode"
      = some (boolToJs (classContains "dark-theme" (darkModeClick p).bodyClasses)) := by
    simp [darkModeClick, setItem]
  refine ⟨h1, ?_, ?_, ?_⟩
  · rw [h2]; rfl
  · have h3 : classContains "dark-theme" (darkModeClick (darkModeClick p)).bodyClasses
        = !classContains "dark-theme" (darkModeClick p).bodyClasses :=
      classContains_toggle _ _
    rw [h3, h1, Bool.not_not]
  · unfold darkModeLoad
    simp only [if_true, h2]
    cases hc : classContains "dark-theme" (darkModeClick p).bodyClasses with
    | true => simp [boolToJs, classContains_add]
    | false => simp [boolToJs, hmarkup]

/-- Witness of C6: a light page with nothing stored, reloaded with a body of
class `bg-light`. -/
theorem C6_dark_mode_toggle_witness :
    classContains "dark-theme"
        (darkModeLoad true
          { bodyClasses := ["bg-light"],
            localStorage := (darkModeClick
              { bodyClasses := ["bg-light"], localStorage := fun _ => none }).localStorage
          }).bodyClasses = true :=
  (C6_dark_mode_toggle { bodyClasses := ["bg-light"], localStorage := fun _ => none }
    ["bg-light"] (by decide)).2.2.2.trans (by decide)

/-! ## Delete confirmation -/

/-- C7: on a submit event whose default action is not yet cancelled, the listener
of a delete form cancels it if and only if the user declined the confirmation;
after an accepted confirmation the event is untouched and the submission proceeds. -/
theorem C7_delete_confirmation (confirmed : Bool) (e : SubmitEvent)
    (hfresh : e.defaultPrevented = false) :
    ((deleteFormSubmit confirmed e).defaultPrevented = true ↔ confirmed = false) ∧
      (confirmed = true → deleteFormSubmit confirmed e = e ∧
        submissionProceeds (deleteFormSubmit confirmed e) = true) ∧
      (confirmed = false → submissionProceeds (deleteFormSubmit confirmed e) = false) := by
  cases confirmed <;>
    simp [deleteFormSubmit, SubmitEvent.preventDefault, submissionProceeds, hfresh]

/-- Witness of C7: a fresh submit event and a declined confirmation. -/
theorem C7_delete_confirmation_witness :
    (deleteFormSubmit false { defaultPrevented := false }).defaultPrevented = true :=
  (C7_delete_confirmation false { defaultPrevented := false } rfl).1.mpr rfl

/-! ## The page as a tree of elements -/

namespace Node

@[simp] theorem elem_mk (e : Element) (cs : List Node) : (mk e cs).elem = e := rfl
@[simp] theorem children_mk (e : Element) (cs : List Node) : (mk e cs).children = cs := rfl

theorem at?_modifyAt (f : Node → Node) (p : List Nat) :
    ∀ n : Node, (modifyAt f p n).at? p = (n.at? p).map f := by
  induction p with
  | nil => intro n; simp [modifyAt, at?]
  | cons i p ih =>
    intro n
    cases n with
    | mk e cs =>
      cases h : cs[i]? with
      | none => simp [modifyAt, at?, h]
      | some c =>
        have hi : i < cs.length := by
          by_contra hcon
          rw [List.getElem?_eq_none (by omega)] at h
          cases h
        simp [modifyAt, at?, h, List.getElem?_set, hi, ih c]

theorem modifyAt_modifyAt (f g : Node → Node) (p : List Nat) :
    ∀ n : Node, modifyAt g p (modifyAt f p n) = modifyAt (fun x => g (f x)) p n := by
  induction p with
  | nil => intro n; simp [modifyAt]
  | cons i p ih =>
    intro n
    cases n with
    | mk e cs =>
      cases h : cs[i]? with
      | none => simp [modifyAt, h]
      | some c =>
        have hi : i < cs.length := by
          by_contra hcon
          rw [List.getElem?_eq_none (by omega)] at h
          cases h
        simp [modifyAt, h, List.getElem?_set, hi, ih c]

theorem modifyAt_congr (f g : Node → Node) (p : List Nat) :
    ∀ (n x : Node), n.at? p = some x → f x = g x → modifyAt f p n = modifyAt g p n := by
  induction p with
  | nil =>
    intro n x hx hfg
    simp only [at?, Option.some.injEq] at hx
    subst hx
    simpa [modifyAt] using hfg
  | cons i p ih =>
    intro n x hx hfg
    cases n with
    | mk e cs =>
      cases h : cs[i]? with
      | none => simp [modifyAt, h]
      | some c =>
        simp only [at?, h] at hx
        simp [modifyAt, h, ih c x hx hfg]

theorem modifyAt_append (f : Node → Node) (p q : List Nat) :
    ∀ n : Node, modifyAt f (p ++ q) n = modifyAt (modifyAt f q) p n := by
  induction p with
  | nil => intro n; simp [modifyAt]
  | cons i p ih =>
    intro n
    cases n with
    | mk e cs =>
      cases h : cs[i]? with
      | none => simp [modifyAt, h]
      | some c => simp [modifyAt, h, ih c]

theorem countIdIn_eq_sum (t : String) (cs : List Node) :
    countIdIn t cs = (cs.map (countId t)).sum := by
  induction cs with
  | nil => simp [countIdIn]
  | cons c cs ih => simp [countIdIn, ih]

theorem countIdIn_set (t : String) (cs : List Node) (i : Nat) (c d : Node)
    (h : cs[i]? = some c) :
    countIdIn t (cs.set i d) + countId t c = countIdIn t cs + countId t d := by
  induction cs generalizing i with
  | nil => simp at h
  | cons a as ih =>
    cases i with
    | zero =>
      simp only [List.getElem?_cons_zero, Option.some.injEq] at h
      subst h
      simp only [List.set_cons_zero, countIdIn]
      omega
    | succ j =>
      simp only [List.getElem?_cons_succ] at h
      have := ih j h
      simp only [List.set_cons_succ, countIdIn]
      omega

theorem countId_modifyAt (t : String) (f : Node → Node) (p : List Nat) :
    ∀ (n x : Node), n.at? p = some x →
      countId t (modifyAt f p n) + countId t x = countId t n + countId t (f x) := by
  induction p with
  | nil =>
    intro n x hx
    simp only [at?, Option.some.injEq] at hx
    subst hx
    simp [modifyAt, Nat.add_comm]
  | cons i p ih =>
    intro n x hx
    cases n with
    | mk e cs =>
      cases h : cs[i]? with
      | none => simp [at?, h] at hx
      | some c =>
        simp only [at?, h] at hx
        have h1 := ih c x hx
        have h2 := countIdIn_set t cs i c (modifyAt f p c) h
        simp only [modifyAt, h, countId]
        omega


theorem findIdIn_some (t : String) (cs : List Node) :
    ∀ (k : Nat) (q : List Nat), findIdIn t k cs = some q →
      ∃ i c p, q = (k + i) :: p ∧ cs[i]? = some c ∧ findId t c = some p ∧
        ∀ j, j < i → ∀ d, cs[j]? = some d → findId t d = none := by
  induction cs with
  | nil => intro k q h; simp [findIdIn] at h
  | cons a as ih =>
    intro k q h
    unfold findIdIn at h
    cases ha : findId t a with
    | some p =>
      simp only [ha, Option.some.injEq] at h
      exact ⟨0, a, p, by simp [h], by simp, ha, by intro j hj; omega⟩
    | none =>
      simp only [ha] at h
      obtain ⟨i, c, p, hq, hc, hf, hlt⟩ := ih (k + 1) q h
      refine ⟨i + 1, c, p, by rw [hq]; congr 1; omega, by simpa using hc, hf, ?_⟩
      intro j hj d hd
      cases j with
      | zero =>
        simp only [List.getElem?_cons_zero, Option.some.injEq] at hd
        subst hd; exact ha
      | succ j' =>
        simp only [List.getElem?_cons_succ] at hd
        exact hlt j' (by omega) d hd

theorem findIdIn_of_first (t : String) (cs : List Node) :
    ∀ (k i : Nat) (c : Node) (p : List Nat), cs[i]? = some c → findId t c = some p →
      (∀ j, j < i → ∀ d, cs[j]? = some d → findId t d = none) →
      findIdIn t k cs = some ((k + i) :: p) := by
  induction cs with
  | nil => intro k i c p h; simp at h
  | cons a as ih =>
    intro k i c p hc hf hlt
    unfold findIdIn
    cases i with
    | zero =>
      simp only [List.getElem?_cons_zero, Option.some.injEq] at hc
      subst hc
      simp [hf]
    | succ i' =>
      have ha : findId t a = none := hlt 0 (by omega) a (by simp)
      simp only [List.getElem?_cons_succ] at hc
      simp only [ha]
      rw [ih (k + 1) i' c p hc hf (fun j hj d hd => hlt (j + 1) (by omega) d (by simpa using hd))]
      congr 2; omega

theorem findIdIn_none_append (t : String) (cs : List Node) (c : Node) :
    ∀ k, findIdIn t k cs = none → findIdIn t k (cs ++ [c]) = findIdIn t (k + cs.length) [c] := by
  induction cs with
  | nil => intro k _; simp
  | cons a as ih =>
    intro k h
    unfold findIdIn at h
    cases ha : findId t a with
    | some p => simp [ha] at h
    | none =>
      simp only [ha] at h
      simp only [List.cons_append, List.length_cons]
      rw [findIdIn, ha]
      simp only
      rw [ih (k + 1) h]
      congr 1; omega

/-- The element that the search returns carries the identifier. -/
theorem findId_at (t : String) (p : List Nat) :
    ∀ n : Node, findId t n = some p → ∃ x, n.at? p = some x ∧ x.elem.id = t := by
  induction p with
  | nil =>
    intro n h
    cases n with
    | mk e cs =>
      unfold findId at h
      by_cases he : e.id = t
      · exact ⟨mk e cs, rfl, he⟩
      · simp only [he, if_false] at h
        obtain ⟨i, c, p, hq, -⟩ := findIdIn_some t cs 0 [] h
        cases hq
  | cons i p ih =>
    intro n h
    cases n with
    | mk e cs =>
      unfold findId at h
      by_cases he : e.id = t
      · simp [he] at h
      · simp only [he, if_false] at h
        obtain ⟨i0, c, p0, hq, hc, hf, -⟩ := findIdIn_some t cs 0 _ h
        simp only [Nat.zero_add, List.cons.injEq] at hq
        obtain ⟨rfl, rfl⟩ := hq
        obtain ⟨x, hx, hid⟩ := ih c hf
        exact ⟨x, by simp [at?, hc, hx], hid⟩

/-- A change of the found element, or below it, that keeps its `id` does not move
the result of the search. -/
theorem findId_modifyAt_self (t : String) (f : Node → Node)
    (hf : ∀ x, (f x).elem.id = x.elem.id) (p : List Nat) :
    ∀ n : Node, findId t n = some p → findId t (modifyAt f p n) = some p := by
  induction p with
  | nil =>
    intro n h
    obtain ⟨x, hx, hid⟩ := findId_at t [] n h
    simp only [at?, Option.some.injEq] at hx
    subst hx
    have h2 := hf n
    simp only [modifyAt]
    cases hfn : f n with
    | mk e cs =>
      rw [hfn] at h2
      simp only [elem_mk] at h2
      simp [findId, h2, hid]
  | cons i p ih =>
    intro n h
    cases n with
    | mk e cs =>
      unfold findId at h
      by_cases he : e.id = t
      · simp [he] at h
      · simp only [he, if_false] at h
        obtain ⟨i0, c, p0, hq, hc, hfc, hlt⟩ := findIdIn_some t cs 0 _ h
        simp only [Nat.zero_add, List.cons.injEq] at hq
        obtain ⟨rfl, rfl⟩ := hq
        have hi : i < cs.length := by
          by_contra hcon
          rw [List.getElem?_eq_none (by omega)] at hc
          cases hc
        simp only [modifyAt, hc, findId, he, if_false]
        have := findIdIn_of_first t (cs.set i (modifyAt f p c)) 0 i (modifyAt f p c) p
          (by simp [List.getElem?_set, hi]) (ih c hfc)
          (fun j hj d hd => hlt j hj d (by
            rw [List.getElem?_set_ne (by omega)] at hd; exact hd))
        simpa using this

theorem findId_appendChild_of_none (t : String) (n c : Node) (h : findId t n = none)
    (hc : c.elem.id = t) : findId t (n.appendChild c) = some [n.children.length] := by
  cases n with
  | mk e cs =>
    unfold findId at h
    by_cases he : e.id = t
    · simp [he] at h
    · simp only [he, if_false] at h
      have hcf : findId t c = some [] := by
        cases c with
        | mk ce ccs => simp only [elem_mk] at hc; simp [findId, hc]
      simp only [appendChild, findId, he, if_false, children_mk]
      rw [findIdIn_none_append t cs c 0 h]
      simp [findIdIn, hcf]

mutual
theorem findId_eq_none_iff (t : String) : ∀ n : Node, findId t n = none ↔ countId t n = 0
  | mk e cs => by
    have ih := findIdIn_eq_none_iff t cs 0
    unfold findId countId
    by_cases he : e.id = t
    · simp [he]
    · simp [he, ih]
theorem findIdIn_eq_none_iff (t : String) :
    ∀ (cs : List Node) (k : Nat), findIdIn t k cs = none ↔ countIdIn t cs = 0
  | [], _ => by simp [findIdIn, countIdIn]
  | c :: cs, k => by
    have ih1 := findId_eq_none_iff t c
    have ih2 := findIdIn_eq_none_iff t cs (k + 1)
    unfold findIdIn countIdIn
    cases hc : findId t c with
    | some p =>
      have : countId t c ≠ 0 := fun h0 => by
        rw [← ih1] at h0; rw [h0] at hc; cases hc
      simp [this]
    | none =>
      have : countId t c = 0 := ih1.mp hc
      simp [this, ih2]
end


theorem modifyAt_of_fixed (f : Node → Node) (p : List Nat) :
    ∀ (n : Node), (∀ x, n.at? p = some x → f x = x) → modifyAt f p n = n := by
  induction p with
  | nil => intro n h; exact h n (by cases n; rfl)
  | cons i p ih =>
    intro n h
    cases n with
    | mk e cs =>
      cases hc : cs[i]? with
      | none => simp [modifyAt, hc]
      | some c =>
        have hi : i < cs.length := by
          by_contra hcon
          rw [List.getElem?_eq_none (by omega)] at hc
          cases hc
        have e1 : modifyAt f p c = c := ih c (fun x hx => h x (by simp [at?, hc, hx]))
        simp only [modifyAt, hc, e1]
        congr 1
        apply List.ext_getElem? 
        intro j
        by_cases hj : i = j
        · subst hj; simp [hi, hc]
        · rw [List.getElem?_set_ne hj]

theorem countId_appendChildren (t : String) (n : Node) (more : List Node) :
    countId t (n.appendChildren more) = countId t n + countIdIn t more := by
  cases n with
  | mk e cs =>
    simp only [appendChildren, countId, countIdIn_eq_sum, List.map_append, List.sum_append]
    omega

theorem countId_appendChild (t : String) (n c : Node) :
    countId t (n.appendChild c) = countId t n + countId t c := by
  cases n with
  | mk e cs =>
    simp only [appendChild, countId, countIdIn_eq_sum, List.map_append, List.sum_append,
      List.map_cons, List.map_nil, List.sum_cons, List.sum_nil]
    omega

theorem countId_setProp (t : String) (n : Node) (key value : String) :
    countId t (n.setProp key value) = countId t n := by
  cases n with
  | mk e cs => simp [setProp, countId]

end Node

theorem prop?_setProp (n : Node) (key value : String) :
    (n.setProp key value).prop? key = some value := by
  cases n with
  | mk e cs =>
    simp only [Node.setProp, Node.prop?, Node.elem_mk]
    generalize e.props = l
    induction l with
    | nil => simp [setKey]
    | cons kv rest ih =>
      obtain ⟨k, v⟩ := kv
      unfold setKey
      by_cases hk : k = key
      · simp [hk]
      · simp only [hk, if_false]
        rw [List.find?_cons_of_neg _ (by simpa using hk)]
        exact ih

/-! ## Toasts -/

theorem countIdIn_toasts (parseHTML : String → List Node)
    (calls : List (String × Option String))
    (hmsg : ∀ call ∈ calls,
      Node.countIdIn "toast-container" (parseHTML (toastMarkup call.1)) = 0) :
    Node.countIdIn "toast-container" (calls.map (toastOf parseHTML)) = 0 := by
  induction calls with
  | nil => rfl
  | cons c cs ih =>
    have h1 := hmsg c (List.mem_cons_self _ _)
    have h2 := ih (fun call hc => hmsg call (List.mem_cons_of_mem _ hc))
    have hne : ¬ ("" : String) = "toast-container" := by decide
    simp [Node.countIdIn, h1, h2, toastOf, toastElement, Node.countId, hne]

theorem ensureToastContainer_of_found (n : Node) (p : List Nat)
    (h : n.findId "toast-container" = some p) : ensureToastContainer n = n := by
  simp [ensureToastContainer, h]

theorem showToasts_of_found (parseHTML : String → List Node)
    (calls : List (String × Option String)) :
    ∀ (n : Node) (p : List Nat), n.findId "toast-container" = some p →
      showToasts parseHTML calls n
        = some (n.modifyAt (fun c => c.appendChildren (calls.map (toastOf parseHTML))) p) := by
  induction calls with
  | nil =>
    intro n p _
    have : n.modifyAt (fun c => c.appendChildren ([].map (toastOf parseHTML))) p = n :=
      Node.modifyAt_of_fixed _ p n (fun x _ => by cases x; simp [Node.appendChildren])
    simp only [this]
    rfl
  | cons call rest ih =>
    intro n p h
    have hstep : showToast parseHTML call.1 call.2 n
        = some (n.modifyAt (fun c => c.appendChild (toastOf parseHTML call)) p) := by
      simp [showToast, ensureToastContainer_of_found n p h, h, toastOf]
    have hnext : (n.modifyAt (fun c => c.appendChild (toastOf parseHTML call)) p).findId
        "toast-container" = some p :=
      Node.findId_modifyAt_self _ _ (fun x => by cases x; rfl) p n h
    have hrest := ih _ p hnext
    rw [Node.modifyAt_modifyAt] at hrest
    have hfun : (fun x : Node =>
          (x.appendChild (toastOf parseHTML call)).appendChildren
            (rest.map (toastOf parseHTML)))
        = fun c => c.appendChildren ((call :: rest).map (toastOf parseHTML)) := by
      funext x; cases x; simp [Node.appendChild, Node.appendChildren]
    rw [hfun] at hrest
    rw [← hrest]
    simp only [showToasts, List.foldlM_cons, hstep]
    rfl

theorem showToast_ensured (parseHTML : String → List Node) (message : String)
    (type : Option String) (body : Node) :
    showToast parseHTML message type body
      = showToast parseHTML message type (ensureToastContainer body) := by
  cases h : body.findId "toast-container" with
  | some p => rw [ensureToastContainer_of_found body p h]
  | none =>
    have hfound :=
      Node.findId_appendChild_of_none "toast-container" body toastContainerElement h rfl
    have e1 : ensureToastContainer body = body.appendChild toastContainerElement := by
      simp [ensureToastContainer, h]
    have e2 : ensureToastContainer (body.appendChild toastContainerElement)
        = body.appendChild toastContainerElement :=
      ensureToastContainer_of_found _ _ hfound
    simp only [showToast, e1, e2]

theorem map_toastOf_eraseIdx (parseHTML : String → List Node)
    (calls : List (String × Option String)) (k : Nat) :
    (calls.eraseIdx k).map (toastOf parseHTML)
      = (calls.map (toastOf parseHTML)).eraseIdx k := by
  induction calls generalizing k with
  | nil => rfl
  | cons c cs ih =>
    cases k with
    | zero => rfl
    | succ j => simp [List.eraseIdx, ih]

theorem removeAt_appended (B : Node) (p : List Nat) (container : Node) (more : List Node)
    (k : Nat) (hcont : B.at? p = some container) :
    (B.modifyAt (fun c => c.appendChildren more) p).removeAt
        (p ++ [container.children.length + k])
      = B.modifyAt (fun c => c.appendChildren (more.eraseIdx k)) p := by
  simp only [Node.removeAt, List.getLast?_concat, List.dropLast_concat]
  rw [Node.modifyAt_modifyAt]
  apply Node.modifyAt_congr _ _ p B container hcont
  cases container with
  | mk e cs =>
    simp [Node.appendChildren, Node.removeChild,
      List.eraseIdx_append_of_length_le (Nat.le_add_right cs.length k)]

set_option maxRecDepth 20000 in
/-- Counterexample to C8 as stated: a page that already holds two elements with id
`toast-container` still holds two after `showToast("x", "success")`; and on an empty
body the call `showToast('<div id="toast-container"></div>', 'success')` leaves two
elements with that id, the created container and the `div` that the message brings
into the toast. -/
theorem C8_counterexample :
    (showToast parseToastMarkup "x" (some "success")
        (.mk { tag := "body" }
          [.mk { tag := "div", id := "toast-container" } [],
           .mk { tag := "div", id := "toast-container" } []])).map
      (Node.countId "toast-container") = some 2 ∧
    (showToast parseToastMarkup "<div id=\"toast-container\"></div>" (some "success")
        (.mk { tag := "body" } [])).map
      (Node.countId "toast-container") = some 2 := by
  decide

/-- C8 (amended): on a page with at most one element of id `toast-container`, `n ≥ 1`
calls of `showToast`, with messages whose markup brings in no element of that id and
with no hide event between them, leave exactly one such element: the existing one, or
one created by the first call as last child of the body when none existed. That
container holds its former children followed by the `n` new toasts in call order,
each of class `bg-<kind>` and with the elements of its markup as children; the rest
of the page is unchanged; and the removal of one toast on its `hidden` event leaves
the page as if the other calls alone had been made. -/
theorem C8_toasts_share_one_container (parseHTML : String → List Node) (body : Node)
    (calls : List (String × Option String))
    (hcalls : calls ≠ []) (hone : body.countId "toast-container" ≤ 1)
    (hmsg : ∀ call ∈ calls,
      Node.countIdIn "toast-container" (parseHTML (toastMarkup call.1)) = 0) :
    ∃ (doc : Node) (p : List Nat) (container : Node),
      showToasts parseHTML calls body = some doc ∧
      (ensureToastContainer body).at? p = some container ∧
      container.elem.id = "toast-container" ∧
      ((body.findId "toast-container" = some p ∧ ensureToastContainer body = body) ∨
        (body.findId "toast-container" = none ∧
          ensureToastContainer body = body.appendChild toastContainerElement ∧
          p = [body.children.length] ∧ container = toastContainerElement)) ∧
      doc = (ensureToastContainer body).modifyAt
        (fun c => c.appendChildren (calls.map (toastOf parseHTML))) p ∧
      doc.countId "toast-container" = 1 ∧
      doc.findId "toast-container" = some p ∧
      doc.at? p = some (container.appendChildren (calls.map (toastOf parseHTML))) ∧
      (∀ call ∈ calls,
        (toastOf parseHTML call).elem.className
          = "toast align-items-center text-white bg-" ++ call.2.getD "info" ++ " border-0" ∧
        (toastOf parseHTML call).children = parseHTML (toastMarkup call.1)) ∧
      ∀ k, k < calls.length →
        toastHidden (p ++ [container.children.length + k]) doc
          = (ensureToastContainer body).modifyAt
              (fun c => c.appendChildren ((calls.eraseIdx k).map (toastOf parseHTML))) p := by
  obtain ⟨first, rest, rfl⟩ : ∃ c r, calls = c :: r := by
    cases calls with
    | nil => exact absurd rfl hcalls
    | cons c r => exact ⟨c, r, rfl⟩
  -- the container after lines 155-162
  have hB : ∃ p, (ensureToastContainer body).findId "toast-container" = some p ∧
      (ensureToastContainer body).countId "toast-container" = 1 ∧
      ((body.findId "toast-container" = some p ∧ ensureToastContainer body = body) ∨
        (body.findId "toast-container" = none ∧
          ensureToastContainer body = body.appendChild toastContainerElement ∧
          p = [body.children.length])) := by
    cases h : body.findId "toast-container" with
    | some q =>
      have e := ensureToastContainer_of_found body q h
      have hpos : body.countId "toast-container" ≠ 0 := fun h0 => by
        rw [← Node.findId_eq_none_iff] at h0; rw [h0] at h; cases h
      exact ⟨q, by rw [e]; exact h, by rw [e]; omega, Or.inl ⟨rfl, e⟩⟩
    | none =>
      have e : ensureToastContainer body = body.appendChild toastContainerElement := by
        simp [ensureToastContainer, h]
      have h0 : body.countId "toast-container" = 0 := (Node.findId_eq_none_iff _ _).mp h
      refine ⟨[body.children.length], ?_, ?_, Or.inr ⟨rfl, e, rfl⟩⟩
      · rw [e]
        exact Node.findId_appendChild_of_none _ body toastContainerElement h rfl
      · rw [e, Node.countId_appendChild, h0]
        decide
  obtain ⟨p, hp, hcount, hcase⟩ := hB
  obtain ⟨container, hcont, hid⟩ := Node.findId_at _ p _ hp
  have hshow : showToasts parseHTML (first :: rest) body
      = showToasts parseHTML (first :: rest) (ensureToastContainer body) := by
    simp only [showToasts, List.foldlM_cons]
    rw [showToast_ensured]
  have hdoc := showToasts_of_found parseHTML (first :: rest) _ p hp
  refine ⟨_, p, container, hshow.trans hdoc, hcont, hid, ?_, rfl, ?_, ?_, ?_, ?_, ?_⟩
  · rcases hcase with h | ⟨h1, h2, h3⟩
    · exact Or.inl h
    · refine Or.inr ⟨h1, h2, h3, ?_⟩
      rw [h2, h3] at hcont
      cases body with
      | mk e cs =>
        simp [Node.appendChild, Node.at?] at hcont
        exact hcont.symm
  · have h1 := Node.countId_modifyAt "toast-container"
      (fun c => c.appendChildren ((first :: rest).map (toastOf parseHTML))) p _ container hcont
    rw [Node.countId_appendChildren, countIdIn_toasts parseHTML _ hmsg] at h1
    omega
  · exact Node.findId_modifyAt_self _ _ (fun x => by cases x; rfl) p _ hp
  · rw [Node.at?_modifyAt, hcont]; rfl
  · intro call _
    exact ⟨rfl, rfl⟩
  · intro k _
    rw [map_toastOf_eraseIdx]
    exact removeAt_appended _ p container _ k hcont

set_option maxRecDepth 20000 in
/-- Witness of C8 (amended): an empty body and two calls `showToast("x", "success")`;
the container is created as the first child of the body and holds the two toasts. -/
theorem C8_toasts_share_one_container_witness :
    ∃ (doc : Node),
      showToasts parseToastMarkup [("x", some "success"), ("x", some "success")]
          (.mk { tag := "body" } [])
        = some doc ∧
      doc.countId "toast-container" = 1 ∧
      doc.at? [0] = some (toastContainerElement.appendChildren
        [toastElement parseToastMarkup "x" (some "success"),
         toastElement parseToastMarkup "x" (some "success")]) := by
  obtain ⟨doc, p, container, h1, -, -, hcase, -, h5, -, h7, -⟩ :=
    C8_toasts_share_one_container parseToastMarkup (.mk { tag := "body" } [])
      [("x", some "success"), ("x", some "success")] (by simp) (by decide) (by decide)
  rcases hcase with ⟨h, -⟩ | ⟨-, -, hp, hc⟩
  · have hnone : Node.findId "toast-container" (.mk { tag := "body" } []) = none := by decide
    rw [hnone] at h
    cases h
  · subst hp hc
    exact ⟨doc, h1, h5, h7⟩

/-! ## Image preview -/

theorem at?_append (p q : List Nat) :
    ∀ n : Node, n.at? (p ++ q) = (n.at? p).bind fun x => x.at? q := by
  induction p with
  | nil => intro n; cases n; simp [Node.at?]
  | cons i p ih =>
    intro n
    cases n with
    | mk e cs =>
      cases h : cs[i]? with
      | none => simp [Node.at?, h]
      | some c => simp [Node.at?, h, ih c]

theorem at?_last_appended (par c : Node) :
    (par.appendChild c).at? [par.children.length] = some c := by
  cases par with
  | mk e cs => simp [Node.appendChild, Node.at?]

theorem setProp_last_appended (par c : Node) (key value : String) :
    Node.modifyAt (fun img => img.setProp key value) [par.children.length] (par.appendChild c)
      = par.appendChild (c.setProp key value) := by
  cases par with
  | mk e cs => simp [Node.appendChild, Node.modifyAt]

/-- Counterexample to C9 as stated: the input `foto` is followed by a button in its
parent; after the read completes the next sibling of the input is still the button,
and the created preview comes after the button, as last child of the parent. -/
theorem C9_counterexample :
    ((previewOnLoad [0] 0 "data:image/png;base64,AAAA"
        (.mk { tag := "body" }
          [.mk { tag := "div" }
            [.mk { tag := "input", id := "foto" } [],
             .mk { tag := "button" } []]])).bind fun doc => doc.at? [0]).map
      (fun par => par.children.map fun n => (n.elem.tag, n.elem.id))
      = some [("input", "foto"), ("button", ""), ("img", "foto-preview")] := by
  decide

/-- C9 (amended): when the read of the file completes, if no element has the id
`<input id>-preview`, one `img` with that id is created and appended as the last
child of the parent of the input, after every child the parent already has; if
such an element exists, the first one in document order is reused and no element is
created; in both cases its `src` is the loaded data, and nothing else changes. -/
theorem C9_preview_created_or_reused (body : Node) (parent : List Nat) (index : Nat)
    (par input : Node) (result : String)
    (hpar : body.at? parent = some par) (hinput : par.children[index]? = some input) :
    (body.findId (input.elem.id ++ "-preview") = none →
      ∃ doc img,
        previewOnLoad parent index result body = some doc ∧
        img = (previewElement (input.elem.id ++ "-preview")).setProp "src" result ∧
        img.elem.tag = "img" ∧ img.elem.id = input.elem.id ++ "-preview" ∧
        img.prop? "src" = some result ∧
        doc = body.modifyAt (fun x => x.appendChild img) parent ∧
        doc.at? parent = some (par.appendChild img) ∧
        (par.appendChild img).children = par.children ++ [img] ∧
        doc.at? (parent ++ [par.children.length]) = some img ∧
        doc.countId (input.elem.id ++ "-preview") = 1) ∧
    (∀ q, body.findId (input.elem.id ++ "-preview") = some q →
      ∃ doc old,
        previewOnLoad parent index result body = some doc ∧
        body.at? q = some old ∧ old.elem.id = input.elem.id ++ "-preview" ∧
        doc = body.modifyAt (fun x => x.setProp "src" result) q ∧
        doc.at? q = some (old.setProp "src" result) ∧
        (old.setProp "src" result).prop? "src" = some result ∧
        doc.findId (input.elem.id ++ "-preview") = some q ∧
        ∀ t, doc.countId t = body.countId t) := by
  constructor
  · intro hnone
    have hdoc : (body.modifyAt
          (fun x => x.appendChild (previewElement (input.elem.id ++ "-preview"))) parent).modifyAt
          (fun img => img.setProp "src" result) (parent ++ [par.children.length])
        = body.modifyAt (fun x => x.appendChild
            ((previewElement (input.elem.id ++ "-preview")).setProp "src" result)) parent := by
      rw [Node.modifyAt_append, Node.modifyAt_modifyAt]
      exact Node.modifyAt_congr _ _ parent body par hpar (setProp_last_appended par _ _ _)
    have hat := Node.at?_modifyAt (fun x => x.appendChild
      ((previewElement (input.elem.id ++ "-preview")).setProp "src" result)) parent body
    rw [hpar] at hat
    refine ⟨_, _, ?_, rfl, rfl, rfl, prop?_setProp _ _ _, rfl, hat, ?_, ?_, ?_⟩
    · simp only [previewOnLoad, hpar, hinput, hnone, hdoc]
    · cases par; rfl
    · rw [at?_append, hat]
      exact at?_last_appended par _
    · have h0 : body.countId (input.elem.id ++ "-preview") = 0 :=
        (Node.findId_eq_none_iff _ _).mp hnone
      have h1 := Node.countId_modifyAt (input.elem.id ++ "-preview") (fun x => x.appendChild
        ((previewElement (input.elem.id ++ "-preview")).setProp "src" result)) parent body par hpar
      rw [Node.countId_appendChild] at h1
      have h2 : Node.countId (input.elem.id ++ "-preview")
          ((previewElement (input.elem.id ++ "-preview")).setProp "src" result) = 1 := by
        simp [previewElement, Node.setProp, Node.countId, Node.countIdIn]
      omega
  · intro q hq
    obtain ⟨old, hold, hid⟩ := Node.findId_at _ q body hq
    refine ⟨_, old, ?_, hold, hid, rfl, ?_, prop?_setProp _ _ _, ?_, ?_⟩
    · simp only [previewOnLoad, hpar, hinput, hq]
    · rw [Node.at?_modifyAt, hold]; rfl
    · exact Node.findId_modifyAt_self _ _ (fun x => by cases x; rfl) q body hq
    · intro t
      have h1 := Node.countId_modifyAt t (fun x => x.setProp "src" result) q body old hold
      rw [Node.countId_setProp] at h1
      omega

/-- Witness of C9 (amended): the input `foto` alone in its parent, no preview yet. -/
theorem C9_preview_created_or_reused_witness :
    ∃ doc, previewOnLoad [0] 0 "data:image/png;base64,AAAA"
        (.mk { tag := "body" } [.mk { tag := "div" } [.mk { tag := "input", id := "foto" } []]])
        = some doc ∧
      doc.countId "foto-preview" = 1 := by
  obtain ⟨doc, img, h1, -, -, -, -, -, -, -, -, h2⟩ :=
    (C9_preview_created_or_reused
      (.mk { tag := "body" } [.mk { tag := "div" } [.mk { tag := "input", id := "foto" } []]])
      [0] 0 (.mk { tag := "div" } [.mk { tag := "input", id := "foto" } []])
      (.mk { tag := "input", id := "foto" } []) "data:image/png;base64,AAAA" rfl rfl).1
      (by decide)
  exact ⟨doc, h1, h2⟩

end MainJs
